import Mathlib

/-!
# Verification of the Blackjack RL environment

A shallow embedding of the round engine in `game.py` / `reverse_game.py`
and of the tabular value learner in `agents/q_learning.py`, together with
theorems settling the specification claims.

Card draws are modelled by an infinite stream `Nat → Card` together with a
cursor stored in the environment state: the Python `Shoe` (modelled
separately below for the shoe claims) rebuilds itself before it can run
empty, so from the engine's point of view the draw source never fails.
Python `float` rewards are modelled by `ℚ`.
-/

namespace Blackjack

/-- The thirteen card ranks (`'A'`, `'2'`..`'10'`, `'J'`, `'Q'`, `'K'`). -/
inductive Card
  | A | c2 | c3 | c4 | c5 | c6 | c7 | c8 | c9 | c10 | J | Q | K
  deriving DecidableEq, Repr

/-- `VALUE_MAP`: ace low, faces ten, others literal. -/
def cardValue : Card → Nat
  | .A => 1
  | .c2 => 2
  | .c3 => 3
  | .c4 => 4
  | .c5 => 5
  | .c6 => 6
  | .c7 => 7
  | .c8 => 8
  | .c9 => 9
  | .c10 => 10
  | .J => 10
  | .Q => 10
  | .K => 10

/-- The raw sum `sum(VALUE_MAP[c] for c in self.cards)`. -/
def handTotal (h : List Card) : Nat :=
  (h.map cardValue).sum

/-- `Hand.value`: the raw sum, promoted by 10 when an ace is present and
the promotion does not bust. -/
def handValue (h : List Card) : Nat :=
  if Card.A ∈ h ∧ handTotal h + 10 ≤ 21 then handTotal h + 10 else handTotal h

/-- `Hand.usable_ace`: an ace is present and the promoted total differs
from the raw sum. -/
def usableAce (h : List Card) : Bool :=
  h.contains Card.A && decide (handValue h ≠ handTotal h)

/-- `Hand.is_bust`: promoted value exceeds 21. -/
def isBust (h : List Card) : Bool :=
  decide (21 < handValue h)

/-- `Hand.can_split`: exactly two cards and `cards[0] == cards[1]`. -/
def canSplit (h : List Card) : Bool :=
  h.length == 2 && (h.getD 0 Card.A == h.getD 1 Card.A)

theorem cardValue_pos (c : Card) : 1 ≤ cardValue c := by
  cases c <;> simp [cardValue]

theorem handTotal_le_handValue (h : List Card) : handTotal h ≤ handValue h := by
  unfold handValue
  split <;> omega

theorem handValue_le (h : List Card) : handValue h ≤ handTotal h + 10 := by
  unfold handValue
  split <;> omega

theorem usableAce_true_iff (h : List Card) :
    usableAce h = true ↔ Card.A ∈ h ∧ handTotal h + 10 ≤ 21 := by
  unfold usableAce
  by_cases hc : Card.A ∈ h ∧ handTotal h + 10 ≤ 21
  · have hv : handValue h = handTotal h + 10 := by
      unfold handValue
      rw [if_pos hc]
    have hne : handTotal h + 10 ≠ handTotal h := by omega
    simp [List.contains, List.elem_iff.mpr hc.1, hv, hne, hc]
  · have hv : handValue h = handTotal h := by
      unfold handValue
      rw [if_neg hc]
    simp [hv]
    intro hm
    by_cases hle : handTotal h + 10 ≤ 21
    · exact absurd ⟨hm, hle⟩ hc
    · omega

theorem usableAce_eq_ne (h : List Card) :
    usableAce h = true ↔ handValue h ≠ handTotal h := by
  unfold usableAce
  constructor
  · intro hu
    have := (Bool.and_eq_true _ _).mp hu
    simpa using this.2
  · intro hne
    have hc : Card.A ∈ h ∧ handTotal h + 10 ≤ 21 := by
      by_contra hcc
      exact hne (by unfold handValue; rw [if_neg hcc])
    simp only [List.contains, Bool.and_eq_true, List.elem_iff, decide_eq_true_eq]
    exact ⟨hc.1, hne⟩

theorem usableAce_handValue (h : List Card) (hu : usableAce h = true) :
    handValue h = handTotal h + 10 := by
  have := (usableAce_true_iff h).mp hu
  unfold handValue
  rw [if_pos this]

theorem handTotal_append_singleton (h : List Card) (c : Card) :
    handTotal (h ++ [c]) = handTotal h + cardValue c := by
  simp [handTotal]

/-- C3: `value()` is the raw cards-sum or that sum plus 10; it always lies
in `[cards-sum, cards-sum+10]`; it equals cards-sum+10 exactly when an ace
is present and the promotion keeps the total at most 21; and
`usable_ace()` is true exactly when `value()` differs from the raw sum,
equivalently exactly when an ace is present and the promotion keeps the
total at most 21. -/
theorem hand_value_usable_ace_spec (h : List Card) :
    handTotal h ≤ handValue h ∧
    handValue h ≤ handTotal h + 10 ∧
    (handValue h = handTotal h + 10 ↔ Card.A ∈ h ∧ handTotal h + 10 ≤ 21) ∧
    (handValue h = handTotal h ∨ handValue h = handTotal h + 10) ∧
    (usableAce h = true ↔ handValue h ≠ handTotal h) ∧
    (usableAce h = true ↔ Card.A ∈ h ∧ handTotal h + 10 ≤ 21) := by
  refine ⟨handTotal_le_handValue h, handValue_le h, ?_, ?_, usableAce_eq_ne h,
    usableAce_true_iff h⟩
  · constructor
    · intro hv
      by_contra hc
      have : handValue h = handTotal h := by
        unfold handValue
        rw [if_neg hc]
      omega
    · intro hc
      unfold handValue
      rw [if_pos hc]
  · unfold handValue
    split
    · right
      rfl
    · left
      rfl

/-- Outcome tags logged per hand (`RESULT_*`). -/
inductive Result
  | blackjack | win | loss | push
  deriving DecidableEq, Repr

/-- The four legal moves (`ACTION_HIT`, `ACTION_STAND`, `ACTION_DOUBLE`,
`ACTION_SPLIT`). -/
inductive Action
  | hit | stand | double | split
  deriving DecidableEq, Repr

/-- The loud failures of `BlackjackEnv.step`: the terminal-round assertion
and the two `ValueError`s for illegal Double/Split. -/
inductive Fault
  | episodeOver | doubleOnNonTwo | splitOnNonPair
  deriving DecidableEq, Repr

/-- Engine configuration: `natural_payout` and `dealer_hits_soft17`. -/
structure Config where
  naturalPayout : ℚ
  dealerHitsSoft17 : Bool
  deriving DecidableEq, Repr

/-- The mutable round state of `BlackjackEnv`; `next` is the cursor into
the ambient draw stream. -/
structure EnvState where
  dealer : List Card
  playerHands : List (List Card)
  bets : List ℚ
  currentHand : Nat
  done : Bool
  outcomes : List Result
  next : Nat
  deriving DecidableEq, Repr

/-- The observation dict returned by `BlackjackEnv._get_obs`. -/
structure Obs where
  player : List Card
  dealerUp : Card
  usableAceF : Bool
  canSplitF : Bool
  canDouble : Bool
  deriving DecidableEq, Repr

/-- One `(obs, reward, terminal, state)` transition; `obs` is `none` for
the empty dict returned at a terminal step. -/
structure Trans where
  obs : Option Obs
  reward : ℚ
  terminal : Bool
  state : EnvState
  deriving DecidableEq, Repr

/-- `BlackjackEnv._get_obs`. -/
def getObs (s : EnvState) : Obs :=
  let hand := s.playerHands.getD s.currentHand []
  { player := hand
    dealerUp := s.dealer.headD Card.A
    usableAceF := usableAce hand
    canSplitF := canSplit hand
    canDouble := hand.length == 2 }

/-- `BlackjackEnv.reset`: fresh state, `2` cards dealt alternately to the
player's single hand and the dealer. -/
def resetState (stream : Nat → Card) : EnvState :=
  { dealer := [stream 1, stream 3]
    playerHands := [[stream 0, stream 2]]
    bets := [1]
    currentHand := 0
    done := false
    outcomes := []
    next := 4 }

theorem dealerCond_handTotal_le (h17 : Bool) (d : List Card)
    (hc : handValue d < 17 ∨ (h17 = true ∧ handValue d = 17 ∧ usableAce d = true)) :
    handTotal d ≤ 16 := by
  rcases hc with hlt | ⟨_, h17v, hsoft⟩
  · have := handTotal_le_handValue d
    omega
  · have := usableAce_handValue d hsoft
    omega

/-- The dealer draw loop of `BlackjackEnv._dealer_play` (game.py lines
171-177): draw while the value is below 17, or equals a soft 17 with
`dealer_hits_soft17` set. -/
def dealerRunStd (stream : Nat → Card) (h17 : Bool) (d : List Card) (n : Nat) :
    List Card × Nat :=
  if handValue d < 17 ∨ (h17 = true ∧ handValue d = 17 ∧ usableAce d = true) then
    dealerRunStd stream h17 (d ++ [stream n]) (n + 1)
  else
    (d, n)
termination_by 17 - handTotal d
decreasing_by
  rename_i hcond
  have hle := dealerCond_handTotal_le h17 d hcond
  have := handTotal_append_singleton d (stream n)
  have := cardValue_pos (stream n)
  omega

/-- The dealer draw loop of `ReverseBlackjackEnv._dealer_play_initial`
(reverse_game.py lines 47-53). -/
def dealerRunInit (stream : Nat → Card) (h17 : Bool) (d : List Card) (n : Nat) :
    List Card × Nat :=
  if handValue d < 17 ∨ (h17 = true ∧ handValue d = 17 ∧ usableAce d = true) then
    dealerRunInit stream h17 (d ++ [stream n]) (n + 1)
  else
    (d, n)
termination_by 17 - handTotal d
decreasing_by
  rename_i hcond
  have hle := dealerCond_handTotal_le h17 d hcond
  have := handTotal_append_singleton d (stream n)
  have := cardValue_pos (stream n)
  omega

/-- One iteration of the settlement loop in `BlackjackEnv._dealer_play`
(game.py lines 184-198): outcome tag and reward for one hand against the
dealer value. -/
def settleHand (natural : ℚ) (dVal : Nat) (hand : List Card) (bet : ℚ) :
    Result × ℚ :=
  let hv := handValue hand
  if hand.length = 2 ∧ hv = 21 then (Result.blackjack, bet * natural)
  else if 21 < hv then (Result.loss, -bet)
  else if 21 < dVal ∨ dVal < hv then (Result.win, bet)
  else if hv < dVal then (Result.loss, -bet)
  else (Result.push, 0)

/-- `BlackjackEnv._dealer_play`: run the dealer, then settle every hand in
`zip(player_hands, bets)` order, appending outcome tags and summing the
per-hand rewards. -/
def dealerPlay (stream : Nat → Card) (cfg : Config) (s : EnvState) : Trans :=
  let dn := dealerRunStd stream cfg.dealerHitsSoft17 s.dealer s.next
  let s1 : EnvState := { s with dealer := dn.1, next := dn.2 }
  let dVal := handValue s1.dealer
  let results := (s1.playerHands.zip s1.bets).map
    (fun p => settleHand cfg.naturalPayout dVal p.1 p.2)
  let s2 : EnvState :=
    { s1 with outcomes := s1.outcomes ++ results.map Prod.fst, done := true }
  { obs := none
    reward := (results.map Prod.snd).sum
    terminal := true
    state := s2 }

/-- Python's `reward or 0.0` on an optional reward: `None` and `0.0` are
falsy, any other number is returned unchanged. -/
def pyOr (r : Option ℚ) : ℚ :=
  match r with
  | none => 0
  | some x => if x = 0 then 0 else x

/-- `BlackjackEnv._next_or_dealer`: advance the cursor; hand the next
hand's observation back (with `-bet` if the closed hand is bust, else
`0.0`), or enter dealer play when no hands remain. -/
def nextOrDealer (stream : Nat → Card) (cfg : Config) (s : EnvState) : Trans :=
  let hand := s.playerHands.getD s.currentHand []
  let reward : Option ℚ :=
    if isBust hand = true then some (-(s.bets.getD s.currentHand 0)) else none
  let s1 : EnvState := { s with currentHand := s.currentHand + 1 }
  if s1.currentHand < s1.playerHands.length then
    { obs := some (getObs s1)
      reward := pyOr reward
      terminal := false
      state := s1 }
  else
    dealerPlay stream cfg s1

/-- `BlackjackEnv._finalize_hand`: log a loss for a hand busted by a Hit,
advance the cursor, and end the episode if no hands remain. -/
def finalizeHand (reward : ℚ) (s : EnvState) : Trans :=
  let s1 : EnvState :=
    { s with outcomes := s.outcomes ++ [Result.loss],
             currentHand := s.currentHand + 1 }
  if s1.currentHand < s1.playerHands.length then
    { obs := some (getObs s1)
      reward := reward
      terminal := false
      state := s1 }
  else
    { obs := none
      reward := reward
      terminal := true
      state := { s1 with done := true } }

/-- `BlackjackEnv.step`. -/
def envStep (stream : Nat → Card) (cfg : Config) (a : Action) (s : EnvState) :
    Except Fault Trans :=
  if s.done then Except.error Fault.episodeOver else
  let hand := s.playerHands.getD s.currentHand []
  match a with
  | Action.hit =>
      let hand1 := hand ++ [stream s.next]
      let s1 : EnvState :=
        { s with playerHands := s.playerHands.set s.currentHand hand1,
                 next := s.next + 1 }
      if isBust hand1 = true then
        Except.ok (finalizeHand (-(s1.bets.getD s1.currentHand 0)) s1)
      else
        Except.ok
          { obs := some (getObs s1), reward := 0, terminal := false, state := s1 }
  | Action.stand => Except.ok (nextOrDealer stream cfg s)
  | Action.double =>
      if hand.length ≠ 2 then Except.error Fault.doubleOnNonTwo else
      let s1 : EnvState :=
        { s with bets := s.bets.set s.currentHand (s.bets.getD s.currentHand 0 * 2) }
      let hand1 := hand ++ [stream s1.next]
      let s2 : EnvState :=
        { s1 with playerHands := s1.playerHands.set s1.currentHand hand1,
                  next := s1.next + 1 }
      Except.ok (nextOrDealer stream cfg s2)
  | Action.split =>
      if canSplit hand = false then Except.error Fault.splitOnNonPair else
      let card := hand.getLastD Card.A
      let hand0 := hand.dropLast ++ [stream s.next]
      let newHand := [card, stream (s.next + 1)]
      let s1 : EnvState :=
        { s with
          playerHands :=
            List.insertIdx (s.currentHand + 1) newHand
              (s.playerHands.set s.currentHand hand0),
          bets := List.insertIdx (s.currentHand + 1) (s.bets.getD s.currentHand 0) s.bets,
          next := s.next + 2 }
      Except.ok
        { obs := some (getObs s1), reward := 0, terminal := false, state := s1 }

/-- `ReverseBlackjackEnv.reset`: the same deal as the standard variant,
followed immediately by `_dealer_play_initial`. -/
def reverseResetState (stream : Nat → Card) (h17 : Bool) : EnvState :=
  let s := resetState stream
  let dn := dealerRunInit stream h17 s.dealer s.next
  { s with dealer := dn.1, next := dn.2 }

/-- Run a list of actions from a given state, collecting each step's
`(reward, terminal)` pair. -/
def playAux (stream : Nat → Card) (cfg : Config) :
    List Action → EnvState → Except Fault (List (ℚ × Bool) × EnvState)
  | [], s => Except.ok ([], s)
  | a :: as, s =>
      match envStep stream cfg a s with
      | Except.error e => Except.error e
      | Except.ok t =>
          match playAux stream cfg as t.state with
          | Except.error e => Except.error e
          | Except.ok r => Except.ok ((t.reward, t.terminal) :: r.1, r.2)

/-- Run a list of actions from `reset()`. -/
def play (stream : Nat → Card) (cfg : Config) (acts : List Action) :
    Except Fault (List (ℚ × Bool) × EnvState) :=
  playAux stream cfg acts (resetState stream)

/-- A concrete draw stream taken from a finite list (padded with its
default past the end). -/
def streamOfList (l : List Card) (d : Card) : Nat → Card :=
  fun n => l.getD n d

theorem dealerRun_eq_aux (stream : Nat → Card) (h17 : Bool) :
    ∀ m d n, 17 - handTotal d ≤ m →
      dealerRunStd stream h17 d n = dealerRunInit stream h17 d n := by
  intro m
  induction m with
  | zero =>
      intro d n hm
      have hcond : ¬ (handValue d < 17 ∨
          (h17 = true ∧ handValue d = 17 ∧ usableAce d = true)) := by
        intro hc
        have := dealerCond_handTotal_le h17 d hc
        omega
      unfold dealerRunStd dealerRunInit
      rw [if_neg hcond, if_neg hcond]
  | succ m ih =>
      intro d n hm
      by_cases hc : handValue d < 17 ∨ (h17 = true ∧ handValue d = 17 ∧ usableAce d = true)
      · have hle := dealerCond_handTotal_le h17 d hc
        have h1 := handTotal_append_singleton d (stream n)
        have h2 := cardValue_pos (stream n)
        unfold dealerRunStd dealerRunInit
        rw [if_pos hc, if_pos hc]
        exact ih (d ++ [stream n]) (n + 1) (by omega)
      · unfold dealerRunStd dealerRunInit
        rw [if_neg hc, if_neg hc]

/-- C7: the dealer policy (draw while value < 17, or on a configured soft
17; otherwise stop) is the same function in both variants and is
deterministic given the draw stream: the loops of
`BlackjackEnv._dealer_play` and
`ReverseBlackjackEnv._dealer_play_initial` agree on every dealer hand and
draw position, and the reverse variant's dealer hand resolved at `reset()`
equals the hand the standard variant's dealer loop produces from the same
deal and draw sequence. -/
theorem dealer_policy_variant_independent (stream : Nat → Card) (h17 : Bool) :
    (∀ d n, dealerRunStd stream h17 d n = dealerRunInit stream h17 d n) ∧
    (reverseResetState stream h17).dealer =
      (dealerRunStd stream h17 (resetState stream).dealer (resetState stream).next).1 := by
  have key : ∀ d n, dealerRunStd stream h17 d n = dealerRunInit stream h17 d n :=
    fun d n => dealerRun_eq_aux stream h17 (17 - handTotal d) d n le_rfl
  refine ⟨key, ?_⟩
  show (dealerRunInit stream h17 (resetState stream).dealer (resetState stream).next).1 = _
  rw [key]

/-- A concrete draw stream for the split-round traces: the player is dealt
a pair of 8s against a dealer 10,7; the split hands receive a 10 and a 9,
and the next draw is a 10. -/
def exStream : Nat → Card :=
  streamOfList [Card.c8, Card.c10, Card.c8, Card.c7, Card.c10, Card.c9, Card.c10]
    Card.c2

/-- Default configuration: 3:2 naturals, dealer stands on soft 17. -/
def exCfg : Config :=
  { naturalPayout := 3 / 2, dealerHitsSoft17 := false }

/-- The state after splitting the pair of 8s dealt by `exStream`. -/
def exSplit : EnvState :=
  { dealer := [Card.c10, Card.c7]
    playerHands := [[Card.c8, Card.c10], [Card.c8, Card.c9]]
    bets := [1, 1]
    currentHand := 0
    done := false
    outcomes := []
    next := 6 }

theorem exSplit_step :
    envStep exStream exCfg Action.split (resetState exStream) =
      Except.ok ⟨some (getObs exSplit), 0, false, exSplit⟩ := by
  norm_num [envStep, getObs, resetState, exSplit, exStream, exCfg, streamOfList,
    usableAce, canSplit, isBust, handValue, handTotal, cardValue]

/-- The state after additionally hitting hand 0 into a bust. -/
def exC1Bust : EnvState :=
  { dealer := [Card.c10, Card.c7]
    playerHands := [[Card.c8, Card.c10, Card.c10], [Card.c8, Card.c9]]
    bets := [1, 1]
    currentHand := 1
    done := false
    outcomes := [Result.loss]
    next := 7 }

theorem exC1Bust_step :
    envStep exStream exCfg Action.hit exSplit =
      Except.ok ⟨some (getObs exC1Bust), -1, false, exC1Bust⟩ := by
  norm_num [envStep, finalizeHand, getObs, exSplit, exC1Bust, exStream, exCfg,
    streamOfList, usableAce, canSplit, isBust, handValue, handTotal, cardValue]

theorem exC1_settle_step :
    envStep exStream exCfg Action.stand exC1Bust =
      Except.ok ⟨none, -1, true,
        { dealer := [Card.c10, Card.c7]
          playerHands := [[Card.c8, Card.c10, Card.c10], [Card.c8, Card.c9]]
          bets := [1, 1]
          currentHand := 2
          done := true
          outcomes := [Result.loss, Result.loss, Result.push]
          next := 7 }⟩ := by
  have hd : dealerRunStd exStream false [Card.c10, Card.c7] 7 =
      ([Card.c10, Card.c7], 7) := by
    unfold dealerRunStd
    rw [if_neg (by decide)]
  have hs1 : settleHand (3 / 2) 17 [Card.c8, Card.c10, Card.c10] 1 =
      (Result.loss, -1) := by
    unfold settleHand
    rw [if_neg (by decide), if_pos (by decide)]
  have hs2 : settleHand (3 / 2) 17 [Card.c8, Card.c9] 1 = (Result.push, 0) := by
    unfold settleHand
    rw [if_neg (by decide), if_neg (by decide), if_neg (by decide),
      if_neg (by decide)]
  norm_num [envStep, nextOrDealer, dealerPlay, pyOr, exC1Bust, exCfg, hd, hs1,
    hs2, isBust, handValue, handTotal, cardValue]

/-- C1 is violated by the code: in the round split-8s, hit-bust hand 0,
stand hand 1 (dealer totals 17 and hand 1 pushes), hand 0's `-1` was
already delivered as the reward of the busting Hit step, yet the
settlement loop settles hand 0 again — the settling step returns total
`-1` instead of the push's `0`, and a second `loss` tag is appended,
leaving three outcome tags for two hands. -/
theorem settlement_recounts_early_bust :
    play exStream exCfg [Action.split, Action.hit, Action.stand] =
      Except.ok ([(0, false), (-1, false), (-1, true)],
        { dealer := [Card.c10, Card.c7]
          playerHands := [[Card.c8, Card.c10, Card.c10], [Card.c8, Card.c9]]
          bets := [1, 1]
          currentHand := 2
          done := true
          outcomes := [Result.loss, Result.loss, Result.push]
          next := 7 }) := by
  simp [play, playAux, exSplit_step, exC1Bust_step, exC1_settle_step]

/-- The state after splitting with `exStream` and standing on hand 0. -/
def exC2Stand : EnvState :=
  { dealer := [Card.c10, Card.c7]
    playerHands := [[Card.c8, Card.c10], [Card.c8, Card.c9]]
    bets := [1, 1]
    currentHand := 1
    done := false
    outcomes := []
    next := 6 }

theorem exC2Stand_step :
    envStep exStream exCfg Action.stand exSplit =
      Except.ok ⟨some (getObs exC2Stand), 0, false, exC2Stand⟩ := by
  norm_num [envStep, nextOrDealer, pyOr, getObs, exSplit, exC2Stand, exStream,
    exCfg, streamOfList, usableAce, canSplit, isBust, handValue, handTotal,
    cardValue]

theorem exC2_finalize_step :
    envStep exStream exCfg Action.hit exC2Stand =
      Except.ok ⟨none, -1, true,
        { dealer := [Card.c10, Card.c7]
          playerHands := [[Card.c8, Card.c10], [Card.c8, Card.c9, Card.c10]]
          bets := [1, 1]
          currentHand := 2
          done := true
          outcomes := [Result.loss]
          next := 7 }⟩ := by
  norm_num [envStep, finalizeHand, exC2Stand, exStream, exCfg, streamOfList,
    isBust, handValue, handTotal, cardValue]

/-- C2 is violated by the code: in the round split-8s, stand hand 0, then
hit-bust hand 1, the episode ends with the terminal flag set but with a
single `loss` tag for two player hands — hand 0 is never settled at all
(the dealer never plays), so the log does not contain one tag per hand. -/
theorem outcome_log_one_tag_for_two_hands :
    play exStream exCfg [Action.split, Action.stand, Action.hit] =
      Except.ok ([(0, false), (0, false), (-1, true)],
        { dealer := [Card.c10, Card.c7]
          playerHands := [[Card.c8, Card.c10], [Card.c8, Card.c9, Card.c10]]
          bets := [1, 1]
          currentHand := 2
          done := true
          outcomes := [Result.loss]
          next := 7 }) := by
  simp [play, playAux, exSplit_step, exC2Stand_step, exC2_finalize_step,
    Except.bind]

theorem exC6_double_step :
    envStep exStream exCfg Action.double exSplit =
      Except.ok ⟨some (getObs
          { dealer := [Card.c10, Card.c7]
            playerHands := [[Card.c8, Card.c10, Card.c10], [Card.c8, Card.c9]]
            bets := [2, 1]
            currentHand := 1
            done := false
            outcomes := []
            next := 7 }), -2, false,
        { dealer := [Card.c10, Card.c7]
          playerHands := [[Card.c8, Card.c10, Card.c10], [Card.c8, Card.c9]]
          bets := [2, 1]
          currentHand := 1
          done := false
          outcomes := []
          next := 7 }⟩ := by
  norm_num [envStep, nextOrDealer, pyOr, getObs, exSplit, exStream, exCfg,
    streamOfList, usableAce, canSplit, isBust, handValue, handTotal, cardValue]

/-- C6 as stated is false on the code: in the round split-8s then Double
on hand 0 (which draws a 10 and busts at 28) with hand 1 still to play,
the stand phase after the Double draw returns reward `-2` — the doubled
bet's loss, delivered at that very step — not `0.0`, while remaining
non-terminal. -/
theorem double_bust_stand_phase_not_zero :
    play exStream exCfg [Action.split, Action.double] =
      Except.ok ([(0, false), (-2, false)],
        { dealer := [Card.c10, Card.c7]
          playerHands := [[Card.c8, Card.c10, Card.c10], [Card.c8, Card.c9]]
          bets := [2, 1]
          currentHand := 1
          done := false
          outcomes := []
          next := 7 }) ∧
    (-2 : ℚ) ≠ 0 := by
  constructor
  · simp [play, playAux, exSplit_step, exC6_double_step]
  · norm_num

/-- C6 (amended): a Stand step with further player hands remaining and a
non-bust standing hand returns reward 0.0 and is non-terminal; but when
the single Double draw busts the hand, the stand phase after the Double
draw already carries `-bet` (the doubled bet) as that step's reward —
only that Double-bust path deviates from the original claim. -/
theorem stand_step_reward_spec (stream : Nat → Card) (cfg : Config) (s : EnvState) :
    (s.done = false →
      isBust (s.playerHands.getD s.currentHand []) = false →
      s.currentHand + 1 < s.playerHands.length →
      (envStep stream cfg Action.stand s).map (fun t => (t.reward, t.terminal)) =
        Except.ok (0, false)) ∧
    (s.done = false →
      (s.playerHands.getD s.currentHand []).length = 2 →
      isBust (s.playerHands.getD s.currentHand [] ++ [stream s.next]) = true →
      s.currentHand + 1 < s.playerHands.length →
      s.currentHand < s.bets.length →
      s.bets.getD s.currentHand 0 ≠ 0 →
      (envStep stream cfg Action.double s).map (fun t => (t.reward, t.terminal)) =
        Except.ok (-(s.bets.getD s.currentHand 0 * 2), false)) := by
  constructor
  · intro hdone hbust hlt
    simp only [List.getD_eq_getElem?_getD] at hbust
    simp [envStep, nextOrDealer, pyOr, Except.map, hdone, hbust, hlt]
  · intro hdone hlen hbust hlt hcurb hbet
    have hcur : s.currentHand < s.playerHands.length := by omega
    simp only [List.getD_eq_getElem?_getD] at hlen hbust hbet
    have hb2 : (s.bets.set s.currentHand
        ((s.bets[s.currentHand]?).getD 0 * 2))[s.currentHand]?.getD 0 =
        (s.bets[s.currentHand]?).getD 0 * 2 := by
      simp [List.getElem?_set_self hcurb]
    have hh : (s.playerHands.set s.currentHand
        ((s.playerHands[s.currentHand]?).getD [] ++
          [stream s.next]))[s.currentHand]?.getD [] =
        (s.playerHands[s.currentHand]?).getD [] ++ [stream s.next] := by
      simp [List.getElem?_set_self hcur]
    have hbz : ¬ (-((s.bets[s.currentHand]?).getD 0 * 2) = 0) := by
      simpa using hbet
    simp [envStep, nextOrDealer, pyOr, Except.map, hdone, hlen, hbust, hlt,
      hb2, hh, hbz, List.length_set]

/-- A concrete two-hand state used to instantiate the amended C6. -/
def exStateC6 : EnvState :=
  { dealer := [Card.c10, Card.c7]
    playerHands := [[Card.c8, Card.c9], [Card.c8, Card.c5]]
    bets := [1, 1]
    currentHand := 0
    done := false
    outcomes := []
    next := 0 }

theorem stand_step_reward_spec_witness :
    (envStep (streamOfList [] Card.c10) exCfg Action.stand exStateC6).map
        (fun t => (t.reward, t.terminal)) = Except.ok (0, false) ∧
    (envStep (streamOfList [] Card.c10) exCfg Action.double exStateC6).map
        (fun t => (t.reward, t.terminal)) =
      Except.ok (-((1 : ℚ) * 2), false) := by
  have h := stand_step_reward_spec (streamOfList [] Card.c10) exCfg exStateC6
  exact ⟨h.1 rfl (by decide) (by decide),
    h.2 rfl (by decide) (by decide) (by decide) (by decide) (by decide)⟩

/-- Whether a step aborted with one of the loud failures (the Python
`assert`/`ValueError` paths). -/
def isFault : Except Fault Trans → Bool
  | Except.error _ => true
  | Except.ok _ => false

/-- C5: `step` aborts exactly when called with Double while the current
hand has other than two cards, with Split while the current hand is not
an identical pair, or with any action once the round is terminal; every
other (legal) step call returns a transition. Stated for states whose
cursor is in range whenever the round is not yet terminal, as holds for
every reachable state. -/
theorem step_fault_iff (stream : Nat → Card) (cfg : Config) (a : Action)
    (s : EnvState)
    (hs : s.done = true ∨ s.currentHand < s.playerHands.length) :
    isFault (envStep stream cfg a s) = true ↔
      (s.done = true ∨
       (a = Action.double ∧ (s.playerHands.getD s.currentHand []).length ≠ 2) ∨
       (a = Action.split ∧ canSplit (s.playerHands.getD s.currentHand []) = false)) := by
  by_cases hd : s.done = true
  · simp [envStep, hd, isFault]
  · have hd' : s.done = false := by
      cases hb : s.done
      · rfl
      · exact absurd hb hd
    cases a
    · simp only [envStep, hd', Bool.false_eq_true, if_false]
      split
      · simp [isFault, hd']
      · simp [isFault, hd']
    · simp [envStep, isFault, hd']
    · by_cases hl : (s.playerHands.getD s.currentHand []).length = 2
      · have hl2 := hl
        simp only [List.getD_eq_getElem?_getD] at hl2
        simp [envStep, isFault, hd', hl, hl2]
      · have hl2 := hl
        simp only [List.getD_eq_getElem?_getD] at hl2
        simp [envStep, isFault, hd', hl, hl2]
    · by_cases hc : canSplit (s.playerHands.getD s.currentHand []) = false
      · have hc2 := hc
        simp only [List.getD_eq_getElem?_getD] at hc2
        simp [envStep, isFault, hd', hc, hc2]
      · simp only [Bool.not_eq_false] at hc
        have hc2 := hc
        simp only [List.getD_eq_getElem?_getD] at hc2
        simp [envStep, isFault, hd', hc, hc2]

/-- A non-terminal state whose current hand holds three cards, so Double
is illegal. -/
def exStateC5 : EnvState :=
  { dealer := [Card.c5, Card.c5]
    playerHands := [[Card.c2, Card.c3, Card.c4]]
    bets := [1]
    currentHand := 0
    done := false
    outcomes := []
    next := 0 }

theorem step_fault_iff_witness :
    isFault (envStep (streamOfList [] Card.c2) exCfg Action.double exStateC5) =
      true := by
  have h := step_fault_iff (streamOfList [] Card.c2) exCfg Action.double exStateC5
    (Or.inr (by decide))
  exact h.mpr (Or.inr (Or.inl ⟨rfl, by decide⟩))

/-- C10: `reset()` always yields a non-terminal round with an empty
outcome log — a natural 21 is never auto-settled at the deal — and at
settlement any hand holding exactly two cards valued 21 (whatever its
origin, including a post-split hand) is paid `bet × natural_payout` with
the `blackjack` tag. -/
theorem reset_no_autosettle_blackjack_payout (stream : Nat → Card) :
    (resetState stream).done = false ∧
    (resetState stream).outcomes = [] ∧
    (∀ (natural : ℚ) (dVal : Nat) (hand : List Card) (bet : ℚ),
      hand.length = 2 → handValue hand = 21 →
      settleHand natural dVal hand bet = (Result.blackjack, bet * natural)) := by
  refine ⟨rfl, rfl, ?_⟩
  intro natural dVal hand bet h2 h21
  simp [settleHand, h2, h21]

theorem reset_no_autosettle_blackjack_payout_witness :
    (resetState (streamOfList [Card.A, Card.c5, Card.K, Card.c6] Card.c2)).done
        = false ∧
    (resetState (streamOfList [Card.A, Card.c5, Card.K, Card.c6] Card.c2)).outcomes
        = [] ∧
    settleHand (3 / 2) 17 [Card.A, Card.K] 1 = (Result.blackjack, 1 * (3 / 2)) := by
  have h := reset_no_autosettle_blackjack_payout
    (streamOfList [Card.A, Card.c5, Card.K, Card.c6] Card.c2)
  exact ⟨h.1, h.2.1, h.2.2 (3 / 2) 17 [Card.A, Card.K] 1 rfl (by decide)⟩

/-- The rank list of `Shoe._build_shoe`:
`['A'] + [str(n) for n in range(2, 11)] + ['J', 'Q', 'K']`. -/
def shoeRanks : List Card :=
  [Card.A, Card.c2, Card.c3, Card.c4, Card.c5, Card.c6, Card.c7, Card.c8,
   Card.c9, Card.c10, Card.J, Card.Q, Card.K]

/-- `Shoe._build_shoe`: `ranks * 4 * num_decks`, then `random.shuffle` —
modelled by an explicit shuffle function (a permutation in the theorems
below). -/
def buildShoe (shuffle : List Card → List Card) (numDecks : Nat) : List Card :=
  shuffle (List.join (List.replicate (4 * numDecks) shoeRanks))

/-- The `Shoe` state: configuration plus the current draw pile. -/
structure Shoe where
  numDecks : Nat
  reshuffleThreshold : Nat
  cards : List Card
  deriving DecidableEq, Repr

/-- `Shoe.__init__`. -/
def mkShoe (shuffle : List Card → List Card) (numDecks reshuffleThreshold : Nat) :
    Shoe :=
  { numDecks := numDecks
    reshuffleThreshold := reshuffleThreshold
    cards := buildShoe shuffle numDecks }

/-- `Shoe.draw`: rebuild first when the pile has fallen below the
threshold, then pop the front card; `none` models the `IndexError` of
popping an empty deque. -/
def shoeDraw (shuffle : List Card → List Card) (sh : Shoe) :
    Option (Card × Shoe) :=
  let cards :=
    if sh.cards.length < sh.reshuffleThreshold then buildShoe shuffle sh.numDecks
    else sh.cards
  match cards with
  | [] => none
  | c :: rest => some (c, { sh with cards := rest })

/-- Iterate `shoeDraw`, failing if any draw fails. -/
def shoeDrawN (shuffle : List Card → List Card) : Nat → Shoe → Option Shoe
  | 0, sh => some sh
  | n + 1, sh =>
      match shoeDraw shuffle sh with
      | none => none
      | some p => shoeDrawN shuffle n p.2

/-- C4 as stated is false on the code: with a positive deck count but
`reshuffle_threshold = 0`, the pile is never rebuilt (its size is never
below 0), so after the 52 draws of a single deck the 53rd draw pops an
empty pile and fails. -/
theorem shoe_draw_can_fail :
    shoeDrawN (fun l => l) 53 (mkShoe (fun l => l) 1 0) = none ∧
    0 < (mkShoe (fun l => l) 1 0).numDecks := by
  decide

/-- C4 (amended): for a positive deck count and a reshuffle threshold of
at least 1, `draw` never pops an empty pile: whenever the remaining count
is below the threshold the pile is first rebuilt to exactly
`52 × num_decks` shuffled cards (for any shuffle that permutes, as
`random.shuffle` does), so every call to draw returns a rank. -/
theorem shoe_draw_total (shuffle : List Card → List Card)
    (hshuf : ∀ l, (shuffle l).Perm l) (sh : Shoe)
    (hdecks : 1 ≤ sh.numDecks) (hthr : 1 ≤ sh.reshuffleThreshold) :
    (buildShoe shuffle sh.numDecks).length = 52 * sh.numDecks ∧
    (shoeDraw shuffle sh).isSome = true := by
  have hlen : (buildShoe shuffle sh.numDecks).length = 52 * sh.numDecks := by
    unfold buildShoe
    rw [(hshuf _).length_eq]
    simp [List.length_join, List.map_replicate, List.sum_replicate, shoeRanks,
      smul_eq_mul]
    omega
  refine ⟨hlen, ?_⟩
  have hpos : 0 < (if sh.cards.length < sh.reshuffleThreshold then
      buildShoe shuffle sh.numDecks else sh.cards).length := by
    split
    · omega
    · rename_i hge
      omega
  obtain ⟨c, rest, he⟩ : ∃ c rest,
      (if sh.cards.length < sh.reshuffleThreshold then
        buildShoe shuffle sh.numDecks else sh.cards) = c :: rest := by
    cases hl : (if sh.cards.length < sh.reshuffleThreshold then
        buildShoe shuffle sh.numDecks else sh.cards) with
    | nil =>
        rw [hl] at hpos
        simp at hpos
    | cons c rest => exact ⟨c, rest, rfl⟩
  simp [shoeDraw, he]

theorem shoe_draw_total_witness :
    (buildShoe (fun l => l) (mkShoe (fun l => l) 1 15).numDecks).length =
        52 * (mkShoe (fun l => l) 1 15).numDecks ∧
    (shoeDraw (fun l => l) (mkShoe (fun l => l) 1 15)).isSome = true :=
  shoe_draw_total (fun l => l) (fun l => List.Perm.refl l)
    (mkShoe (fun l => l) 1 15) (by decide) (by decide)

/-- The learner's action space: `ACTION_HIT` and `ACTION_STAND` only. -/
inductive PAct
  | hit | stand
  deriving DecidableEq, Repr

/-- One inner dict `{ACTION_HIT: float, ACTION_STAND: float}`. -/
structure QEntry where
  hit : ℚ
  stand : ℚ
  deriving DecidableEq, Repr

/-- The discretized state key `(player_sum, dealer_val, usable_ace)`. -/
abbrev QKey := Nat × Nat × Bool

/-- The `defaultdict` value table as an insertion-ordered association
list. -/
abbrev QTable := List (QKey × QEntry)

def qFind : QTable → QKey → Option QEntry
  | [], _ => none
  | p :: t, key => if p.1 = key then some p.2 else qFind t key

/-- Lookup with the defaultdict's default `{hit: 0.0, stand: 0.0}`. -/
def qEntryD (t : QTable) (k : QKey) : QEntry :=
  (qFind t k).getD ⟨0, 0⟩

/-- Materialization of a key on a `defaultdict` read. -/
def qEnsure (t : QTable) (k : QKey) : QTable :=
  match qFind t k with
  | some _ => t
  | none => t ++ [(k, ⟨0, 0⟩)]

def qGet (e : QEntry) : PAct → ℚ
  | PAct.hit => e.hit
  | PAct.stand => e.stand

def qSetA (e : QEntry) : PAct → ℚ → QEntry
  | PAct.hit, v => { e with hit := v }
  | PAct.stand, v => { e with stand := v }

/-- Replace the inner dict stored at a present key. -/
def qUpdate : QTable → QKey → QEntry → QTable
  | [], _, _ => []
  | p :: t, k, e => (if p.1 = k then (p.1, e) else p) :: qUpdate t k e

/-- The dealer field of an observation: `dealer_up` in the standard
variant, `dealer_value` in the reverse variant. -/
inductive DealerInfo
  | up (c : Card)
  | finalVal (v : Nat)
  deriving DecidableEq, Repr

/-- The observation fields read by the agent. -/
structure AObs where
  player : List Card
  dealer : DealerInfo
  usableAceF : Bool
  deriving DecidableEq, Repr

/-- `QLearningAgent._state_key`. -/
def stateKey (o : AObs) : QKey :=
  let psum := handTotal o.player
  let psum := if o.usableAceF = true ∧ psum + 10 ≤ 21 then psum + 10 else psum
  let dv :=
    match o.dealer with
    | DealerInfo.up c => cardValue c
    | DealerInfo.finalVal v => v
  (psum, dv, o.usableAceF)

/-- `QLearningAgent` state: hyperparameters and the value table. -/
structure QAgent where
  alpha : ℚ
  gamma : ℚ
  epsilon : ℚ
  Q : QTable
  deriving DecidableEq, Repr

/-- `QLearningAgent.observe`: compute the bootstrapped target (reading —
and thereby materializing — the next state's entry when not terminal),
then write the updated estimate at `(state, action)`. -/
def qObserve (ag : QAgent) (o : AObs) (a : PAct) (r : ℚ) (no : AObs)
    (done : Bool) : QAgent :=
  let sk := stateKey o
  let tt : QTable × ℚ :=
    if done then (ag.Q, r)
    else
      let nk := stateKey no
      let tbl := qEnsure ag.Q nk
      let e := qEntryD tbl nk
      (tbl, r + ag.gamma * max e.hit e.stand)
  let tbl := qEnsure tt.1 sk
  let old := qGet (qEntryD tbl sk) a
  { ag with Q := qUpdate tbl sk (qSetA (qEntryD tbl sk) a (old + ag.alpha * (tt.2 - old))) }

theorem qGet_qSetA_self (e : QEntry) (a : PAct) (v : ℚ) :
    qGet (qSetA e a v) a = v := by
  cases a <;> rfl

theorem qGet_qSetA_other (e : QEntry) (a b : PAct) (v : ℚ) (h : b ≠ a) :
    qGet (qSetA e a v) b = qGet e b := by
  cases a <;> cases b <;> first | rfl | exact absurd rfl h

theorem qFind_append_self (t : QTable) (k : QKey) (e : QEntry)
    (h : qFind t k = none) : qFind (t ++ [(k, e)]) k = some e := by
  induction t with
  | nil => simp [qFind]
  | cons p t ih =>
      simp only [qFind] at h
      simp only [List.cons_append, qFind]
      by_cases hk : p.1 = k
      · rw [if_pos hk] at h
        simp at h
      · rw [if_neg hk] at h
        rw [if_neg hk]
        exact ih h

theorem qFind_append_other (t : QTable) (k k' : QKey) (e : QEntry)
    (h : k' ≠ k) : qFind (t ++ [(k, e)]) k' = qFind t k' := by
  have hne : ¬ k = k' := fun hh => h hh.symm
  induction t with
  | nil => simp [qFind, hne]
  | cons p t ih =>
      simp only [List.cons_append, qFind]
      by_cases hk : p.1 = k'
      · rw [if_pos hk, if_pos hk]
      · rw [if_neg hk, if_neg hk]
        exact ih

theorem qFind_qEnsure_self (t : QTable) (k : QKey) :
    qFind (qEnsure t k) k = some (qEntryD t k) := by
  unfold qEnsure qEntryD
  cases hf : qFind t k with
  | some e => simp [hf]
  | none => simp [hf, qFind_append_self t k _ hf]

theorem qFind_qEnsure_other (t : QTable) (k k' : QKey) (h : k' ≠ k) :
    qFind (qEnsure t k) k' = qFind t k' := by
  unfold qEnsure
  cases hf : qFind t k with
  | some e => rfl
  | none => exact qFind_append_other t k k' _ h

theorem qEntryD_qEnsure (t : QTable) (k k' : QKey) :
    qEntryD (qEnsure t k) k' = qEntryD t k' := by
  by_cases h : k' = k
  · subst h
    unfold qEntryD
    rw [qFind_qEnsure_self]
    rfl
  · unfold qEntryD
    rw [qFind_qEnsure_other t k k' h]

theorem qFind_qUpdate_self (t : QTable) (k : QKey) (e : QEntry)
    (h : (qFind t k).isSome = true) : qFind (qUpdate t k e) k = some e := by
  induction t with
  | nil => simp [qFind] at h
  | cons p t ih =>
      simp only [qFind] at h
      simp only [qUpdate]
      by_cases hk : p.1 = k
      · rw [if_pos hk]
        simp [qFind, hk]
      · rw [if_neg hk] at h
        rw [if_neg hk]
        simp only [qFind]
        rw [if_neg hk]
        exact ih h

theorem qFind_qUpdate_other (t : QTable) (k k' : QKey) (e : QEntry)
    (h : k' ≠ k) : qFind (qUpdate t k e) k' = qFind t k' := by
  have hkk : ¬ k = k' := fun hh => h hh.symm
  induction t with
  | nil => rfl
  | cons p t ih =>
      by_cases hk : p.1 = k
      · have hne : ¬ p.1 = k' := by
          rw [hk]
          exact hkk
        simp [qUpdate, qFind, hk, hkk, ih]
      · simp only [qUpdate, if_neg hk, qFind]
        by_cases hk' : p.1 = k'
        · rw [if_pos hk', if_pos hk']
        · rw [if_neg hk', if_neg hk']
          exact ih

theorem qWrite_lookup (tbl0 : QTable) (sk : QKey) (a : PAct) (v : ℚ)
    (k : QKey) (b : PAct) :
    qGet (qEntryD (qUpdate (qEnsure tbl0 sk) sk
        (qSetA (qEntryD (qEnsure tbl0 sk) sk) a v)) k) b =
      if k = sk ∧ b = a then v else qGet (qEntryD tbl0 k) b := by
  by_cases hk : k = sk
  · subst hk
    have hpresent : (qFind (qEnsure tbl0 k) k).isSome = true := by
      rw [qFind_qEnsure_self]
      rfl
    have hE : qEntryD (qUpdate (qEnsure tbl0 k) k
        (qSetA (qEntryD (qEnsure tbl0 k) k) a v)) k =
        qSetA (qEntryD (qEnsure tbl0 k) k) a v := by
      unfold qEntryD
      rw [qFind_qUpdate_self _ _ _ hpresent]
      rfl
    rw [hE]
    by_cases hb : b = a
    · subst hb
      rw [qGet_qSetA_self, if_pos ⟨rfl, rfl⟩]
    · rw [qGet_qSetA_other _ _ _ _ hb, qEntryD_qEnsure,
        if_neg (fun hc => hb hc.2)]
  · have hE : qEntryD (qUpdate (qEnsure tbl0 sk) sk
        (qSetA (qEntryD (qEnsure tbl0 sk) sk) a v)) k = qEntryD tbl0 k := by
      unfold qEntryD
      rw [qFind_qUpdate_other _ _ _ _ hk, qFind_qEnsure_other _ _ _ hk]
    rw [hE, if_neg (fun hc => hk hc.1)]

/-- C8: one call to `observe(obs, action, reward, next_obs, done)` changes
only the estimate at `(discretized obs, action)`, setting it to
`old + learning_rate × (target − old)` where the target is `reward` for a
terminal transition and otherwise
`reward + discount × max` of the two actions' estimates at the
discretized next state; reading a missing key (the next state when not
terminal, and the updated state itself) materializes it with both actions
at 0.0. -/
theorem qObserve_spec (ag : QAgent) (o : AObs) (a : PAct) (r : ℚ) (no : AObs)
    (done : Bool) :
    (∀ (k : QKey) (b : PAct),
      qGet (qEntryD (qObserve ag o a r no done).Q k) b =
        if k = stateKey o ∧ b = a then
          qGet (qEntryD ag.Q (stateKey o)) a +
            ag.alpha *
              ((if done then r
                else r + ag.gamma *
                  max (qEntryD ag.Q (stateKey no)).hit
                    (qEntryD ag.Q (stateKey no)).stand) -
                qGet (qEntryD ag.Q (stateKey o)) a)
        else qGet (qEntryD ag.Q k) b) ∧
    (done = false → qFind ag.Q (stateKey no) = none →
      stateKey no ≠ stateKey o →
      qFind (qObserve ag o a r no done).Q (stateKey no) = some ⟨0, 0⟩) ∧
    (qFind (qObserve ag o a r no done).Q (stateKey o)).isSome = true := by
  cases done with
  | true =>
      have hq : (qObserve ag o a r no true).Q =
          qUpdate (qEnsure ag.Q (stateKey o)) (stateKey o)
            (qSetA (qEntryD (qEnsure ag.Q (stateKey o)) (stateKey o)) a
              (qGet (qEntryD (qEnsure ag.Q (stateKey o)) (stateKey o)) a +
                ag.alpha *
                  (r - qGet (qEntryD (qEnsure ag.Q (stateKey o)) (stateKey o)) a))) :=
        rfl
      refine ⟨?_, ?_, ?_⟩
      · intro k b
        rw [hq, qWrite_lookup]
        simp only [qEntryD_qEnsure]
        simp
      · intro hcontra
        simp at hcontra
      · rw [hq, qFind_qUpdate_self]
        · rfl
        · rw [qFind_qEnsure_self]
          rfl
  | false =>
      have hq : (qObserve ag o a r no false).Q =
          qUpdate (qEnsure (qEnsure ag.Q (stateKey no)) (stateKey o)) (stateKey o)
            (qSetA
              (qEntryD (qEnsure (qEnsure ag.Q (stateKey no)) (stateKey o))
                (stateKey o)) a
              (qGet (qEntryD (qEnsure (qEnsure ag.Q (stateKey no)) (stateKey o))
                  (stateKey o)) a +
                ag.alpha *
                  ((r + ag.gamma *
                    max (qEntryD (qEnsure ag.Q (stateKey no)) (stateKey no)).hit
                      (qEntryD (qEnsure ag.Q (stateKey no)) (stateKey no)).stand) -
                    qGet (qEntryD (qEnsure (qEnsure ag.Q (stateKey no))
                        (stateKey o)) (stateKey o)) a))) :=
        rfl
      refine ⟨?_, ?_, ?_⟩
      · intro k b
        rw [hq, qWrite_lookup]
        simp only [qEntryD_qEnsure]
        simp
      · intro _ hnone hne
        rw [hq, qFind_qUpdate_other _ _ _ _ hne, qFind_qEnsure_other _ _ _ hne,
          qFind_qEnsure_self]
        unfold qEntryD
        rw [hnone]
        rfl
      · rw [hq, qFind_qUpdate_self]
        · rfl
        · rw [qFind_qEnsure_self]
          rfl

/-- A fresh agent and a concrete non-terminal transition. -/
def exAgent : QAgent :=
  { alpha := 1 / 2, gamma := 1, epsilon := 1 / 5, Q := [] }

def exAObs : AObs :=
  { player := [Card.c10, Card.c5], dealer := DealerInfo.up Card.c7,
    usableAceF := false }

def exAObs2 : AObs :=
  { player := [Card.c10, Card.c5, Card.c2], dealer := DealerInfo.up Card.c7,
    usableAceF := false }

theorem qObserve_spec_witness :
    qGet (qEntryD (qObserve exAgent exAObs PAct.hit 1 exAObs2 false).Q
        (stateKey exAObs)) PAct.hit =
      qGet (qEntryD exAgent.Q (stateKey exAObs)) PAct.hit +
        exAgent.alpha *
          ((1 + exAgent.gamma *
            max (qEntryD exAgent.Q (stateKey exAObs2)).hit
              (qEntryD exAgent.Q (stateKey exAObs2)).stand) -
            qGet (qEntryD exAgent.Q (stateKey exAObs)) PAct.hit) ∧
    qFind (qObserve exAgent exAObs PAct.hit 1 exAObs2 false).Q
        (stateKey exAObs2) = some ⟨0, 0⟩ ∧
    (qFind (qObserve exAgent exAObs PAct.hit 1 exAObs2 false).Q
        (stateKey exAObs)).isSome = true := by
  have h := qObserve_spec exAgent exAObs PAct.hit 1 exAObs2 false
  have h1 := h.1 (stateKey exAObs) PAct.hit
  rw [if_pos ⟨rfl, rfl⟩] at h1
  simp only [Bool.false_eq_true, if_false] at h1
  exact ⟨h1, h.2.1 rfl rfl (by decide), h.2.2⟩

/-- States reachable by `reset()` followed by successful `step` calls
(with arbitrary shoe draws at each step). -/
inductive Reachable (cfg : Config) : EnvState → Prop
  | reset (stream : Nat → Card) : Reachable cfg (resetState stream)
  | step (stream : Nat → Card) (a : Action) (s : EnvState) (t : Trans) :
      Reachable cfg s → envStep stream cfg a s = Except.ok t →
      Reachable cfg t.state

/-- The bookkeeping invariant of a round state. -/
def Inv (s : EnvState) : Prop :=
  s.playerHands.length = s.bets.length ∧
  s.currentHand ≤ s.playerHands.length ∧
  (s.done = true ↔ s.currentHand = s.playerHands.length) ∧
  1 ≤ s.playerHands.length

theorem dealerPlay_state_fields (stream : Nat → Card) (cfg : Config)
    (s : EnvState) :
    (dealerPlay stream cfg s).state.playerHands = s.playerHands ∧
    (dealerPlay stream cfg s).state.bets = s.bets ∧
    (dealerPlay stream cfg s).state.currentHand = s.currentHand ∧
    (dealerPlay stream cfg s).state.done = true :=
  ⟨rfl, rfl, rfl, rfl⟩

theorem finalizeHand_inv (r : ℚ) (s : EnvState)
    (hlen : s.playerHands.length = s.bets.length)
    (hcur : s.currentHand < s.playerHands.length) (hdone : s.done = false) :
    Inv (finalizeHand r s).state := by
  unfold Inv
  by_cases hlt : s.currentHand + 1 < s.playerHands.length
  · have hstate : (finalizeHand r s).state =
        { s with outcomes := s.outcomes ++ [Result.loss],
                 currentHand := s.currentHand + 1 } := by
      simp only [finalizeHand]
      rw [if_pos hlt]
    rw [hstate]
    refine ⟨hlen, ?_, ?_, ?_⟩
    · show s.currentHand + 1 ≤ s.playerHands.length
      omega
    · show s.done = true ↔ s.currentHand + 1 = s.playerHands.length
      rw [hdone]
      constructor
      · intro h
        exact absurd h (by simp)
      · intro h
        exact absurd h (by omega)
    · show 1 ≤ s.playerHands.length
      omega
  · have hstate : (finalizeHand r s).state =
        { s with outcomes := s.outcomes ++ [Result.loss],
                 currentHand := s.currentHand + 1, done := true } := by
      simp only [finalizeHand]
      rw [if_neg hlt]
    rw [hstate]
    refine ⟨hlen, ?_, ?_, ?_⟩
    · show s.currentHand + 1 ≤ s.playerHands.length
      omega
    · show true = true ↔ s.currentHand + 1 = s.playerHands.length
      constructor
      · intro _
        omega
      · intro _
        rfl
    · show 1 ≤ s.playerHands.length
      omega

theorem nextOrDealer_inv (stream : Nat → Card) (cfg : Config) (s : EnvState)
    (hlen : s.playerHands.length = s.bets.length)
    (hcur : s.currentHand < s.playerHands.length) (hdone : s.done = false) :
    Inv (nextOrDealer stream cfg s).state := by
  unfold Inv
  by_cases hlt : s.currentHand + 1 < s.playerHands.length
  · have hstate : (nextOrDealer stream cfg s).state =
        { s with currentHand := s.currentHand + 1 } := by
      simp only [nextOrDealer]
      rw [if_pos hlt]
    rw [hstate]
    refine ⟨hlen, ?_, ?_, ?_⟩
    · show s.currentHand + 1 ≤ s.playerHands.length
      omega
    · show s.done = true ↔ s.currentHand + 1 = s.playerHands.length
      rw [hdone]
      constructor
      · intro h
        exact absurd h (by simp)
      · intro h
        exact absurd h (by omega)
    · show 1 ≤ s.playerHands.length
      omega
  · have hstate : (nextOrDealer stream cfg s).state =
        (dealerPlay stream cfg { s with currentHand := s.currentHand + 1 }).state := by
      simp only [nextOrDealer]
      rw [if_neg hlt]
    rw [hstate]
    obtain ⟨h1, h2, h3, h4⟩ :=
      dealerPlay_state_fields stream cfg { s with currentHand := s.currentHand + 1 }
    rw [h1, h2, h3, h4]
    refine ⟨hlen, ?_, ?_, ?_⟩
    · show s.currentHand + 1 ≤ s.playerHands.length
      omega
    · show true = true ↔ s.currentHand + 1 = s.playerHands.length
      constructor
      · intro _
        omega
      · intro _
        rfl
    · show 1 ≤ s.playerHands.length
      omega

theorem finalizeHand_cursor (r : ℚ) (s : EnvState) :
    (finalizeHand r s).state.currentHand = s.currentHand + 1 := by
  simp only [finalizeHand]
  split <;> rfl

theorem nextOrDealer_cursor (stream : Nat → Card) (cfg : Config) (s : EnvState) :
    (nextOrDealer stream cfg s).state.currentHand = s.currentHand + 1 := by
  simp only [nextOrDealer]
  split <;> rfl

theorem envStep_inv_mono (stream : Nat → Card) (cfg : Config) (a : Action)
    (s : EnvState) (t : Trans) (hInv : Inv s)
    (hstep : envStep stream cfg a s = Except.ok t) :
    Inv t.state ∧ s.currentHand ≤ t.state.currentHand := by
  obtain ⟨hlen, hcle, hiff, hpos⟩ := hInv
  by_cases hdone : s.done = true
  · rw [envStep.eq_def, if_pos hdone] at hstep
    simp at hstep
  · have hdone' : s.done = false := by
      cases hb : s.done
      · rfl
      · exact absurd hb hdone
    have hcur : s.currentHand < s.playerHands.length := by
      by_cases hc : s.currentHand = s.playerHands.length
      · exact absurd (hiff.mpr hc) hdone
      · omega
    cases a with
    | hit =>
        simp only [envStep, hdone', Bool.false_eq_true, if_false] at hstep
        split at hstep
        · have ht := Except.ok.inj hstep
          rw [← ht]
          constructor
          · apply finalizeHand_inv
            · show (s.playerHands.set s.currentHand _).length = s.bets.length
              rw [List.length_set]
              exact hlen
            · show s.currentHand < (s.playerHands.set s.currentHand _).length
              rw [List.length_set]
              exact hcur
            · rfl
          · rw [finalizeHand_cursor]
            show s.currentHand ≤ s.currentHand + 1
            omega
        · have ht := Except.ok.inj hstep
          rw [← ht]
          refine ⟨⟨?_, ?_, ?_, ?_⟩, ?_⟩
          · show (s.playerHands.set s.currentHand _).length = s.bets.length
            rw [List.length_set]
            exact hlen
          · show s.currentHand ≤ (s.playerHands.set s.currentHand _).length
            rw [List.length_set]
            omega
          · show false = true ↔ s.currentHand = (s.playerHands.set s.currentHand _).length
            rw [List.length_set]
            constructor
            · intro h
              exact absurd h (by simp)
            · intro h
              exact absurd h (by omega)
          · show 1 ≤ (s.playerHands.set s.currentHand _).length
            rw [List.length_set]
            omega
          · exact le_refl _
    | stand =>
        simp only [envStep, hdone', Bool.false_eq_true, if_false] at hstep
        have ht := Except.ok.inj hstep
        rw [← ht]
        constructor
        · exact nextOrDealer_inv stream cfg s hlen hcur hdone'
        · rw [nextOrDealer_cursor]
          omega
    | double =>
        simp only [envStep, hdone', Bool.false_eq_true, if_false] at hstep
        split at hstep
        · simp at hstep
        · have ht := Except.ok.inj hstep
          rw [← ht]
          constructor
          · apply nextOrDealer_inv
            · show (s.playerHands.set s.currentHand _).length =
                (s.bets.set s.currentHand _).length
              rw [List.length_set, List.length_set]
              exact hlen
            · show s.currentHand < (s.playerHands.set s.currentHand _).length
              rw [List.length_set]
              exact hcur
            · rfl
          · rw [nextOrDealer_cursor]
            show s.currentHand ≤ s.currentHand + 1
            omega
    | split =>
        simp only [envStep, hdone', Bool.false_eq_true, if_false] at hstep
        split at hstep
        · simp at hstep
        · have ht := Except.ok.inj hstep
          rw [← ht]
          refine ⟨⟨?_, ?_, ?_, ?_⟩, ?_⟩
          · show (List.insertIdx (s.currentHand + 1) _
                (s.playerHands.set s.currentHand _)).length =
              (List.insertIdx (s.currentHand + 1) _ s.bets).length
            rw [List.length_insertIdx _ _ (by rw [List.length_set]; omega),
              List.length_insertIdx _ _ (by omega), List.length_set, hlen]
          · show s.currentHand ≤ (List.insertIdx (s.currentHand + 1) _
                (s.playerHands.set s.currentHand _)).length
            rw [List.length_insertIdx _ _ (by rw [List.length_set]; omega),
              List.length_set]
            omega
          · show false = true ↔ s.currentHand = (List.insertIdx (s.currentHand + 1) _
                (s.playerHands.set s.currentHand _)).length
            rw [List.length_insertIdx _ _ (by rw [List.length_set]; omega),
              List.length_set]
            constructor
            · intro h
              exact absurd h (by simp)
            · intro h
              exact absurd h (by omega)
          · show 1 ≤ (List.insertIdx (s.currentHand + 1) _
                (s.playerHands.set s.currentHand _)).length
            rw [List.length_insertIdx _ _ (by rw [List.length_set]; omega),
              List.length_set]
            omega
          · exact le_refl _

theorem reachable_inv (cfg : Config) (s : EnvState) (h : Reachable cfg s) :
    Inv s := by
  induction h with
  | reset stream =>
      refine ⟨rfl, ?_, ?_, ?_⟩
      · show (0 : Nat) ≤ 1
        omega
      · show false = true ↔ (0 : Nat) = 1
        constructor
        · intro hc
          exact absurd hc (by simp)
        · intro hc
          exact absurd hc (by omega)
      · show (1 : Nat) ≤ 1
        omega
  | step stream a s t hr hstep ih =>
      exact (envStep_inv_mono stream cfg a s t ih hstep).1

/-- C9: in every state reachable by `reset` and legal steps,
`len(player_hands) == len(bets)` and the terminal flag holds exactly when
the cursor equals the hand count; the cursor never decreases across a
successful step; and a Split inserts the new hand (the popped card plus
one draw) and a copy of the current bet immediately after the current
index without advancing the cursor. -/
theorem round_state_invariant (cfg : Config) :
    (∀ s, Reachable cfg s →
      s.playerHands.length = s.bets.length ∧
      (s.done = true ↔ s.currentHand = s.playerHands.length)) ∧
    (∀ (stream : Nat → Card) (a : Action) (s : EnvState) (t : Trans),
      envStep stream cfg a s = Except.ok t →
      s.currentHand ≤ t.state.currentHand) ∧
    (∀ (stream : Nat → Card) (s : EnvState) (t : Trans),
      s.done = false →
      envStep stream cfg Action.split s = Except.ok t →
      t.state.currentHand = s.currentHand ∧
      t.state.playerHands =
        List.insertIdx (s.currentHand + 1)
          [(s.playerHands.getD s.currentHand []).getLastD Card.A,
           stream (s.next + 1)]
          (s.playerHands.set s.currentHand
            ((s.playerHands.getD s.currentHand []).dropLast ++ [stream s.next])) ∧
      t.state.bets =
        List.insertIdx (s.currentHand + 1) (s.bets.getD s.currentHand 0) s.bets) := by
  refine ⟨?_, ?_, ?_⟩
  · intro s h
    obtain ⟨h1, _, h3, _⟩ := reachable_inv cfg s h
    exact ⟨h1, h3⟩
  · intro stream a s t hstep
    by_cases hdone : s.done = true
    · rw [envStep.eq_def, if_pos hdone] at hstep
      simp at hstep
    · have hdone' : s.done = false := by
        cases hb : s.done
        · rfl
        · exact absurd hb hdone
      cases a with
      | hit =>
          simp only [envStep, hdone', Bool.false_eq_true, if_false] at hstep
          split at hstep
          · have ht := Except.ok.inj hstep
            rw [← ht, finalizeHand_cursor]
            show s.currentHand ≤ s.currentHand + 1
            omega
          · have ht := Except.ok.inj hstep
            rw [← ht]
      | stand =>
          simp only [envStep, hdone', Bool.false_eq_true, if_false] at hstep
          have ht := Except.ok.inj hstep
          rw [← ht, nextOrDealer_cursor]
          omega
      | double =>
          simp only [envStep, hdone', Bool.false_eq_true, if_false] at hstep
          split at hstep
          · simp at hstep
          · have ht := Except.ok.inj hstep
            rw [← ht, nextOrDealer_cursor]
            show s.currentHand ≤ s.currentHand + 1
            omega
      | split =>
          simp only [envStep, hdone', Bool.false_eq_true, if_false] at hstep
          split at hstep
          · simp at hstep
          · have ht := Except.ok.inj hstep
            rw [← ht]
  · intro stream s t hdone' hstep
    simp only [envStep, hdone', Bool.false_eq_true, if_false] at hstep
    split at hstep
    · simp at hstep
    · have ht := Except.ok.inj hstep
      rw [← ht]
      exact ⟨rfl, rfl, rfl⟩

theorem round_state_invariant_witness :
    ((resetState (streamOfList [] Card.c2)).playerHands.length =
        (resetState (streamOfList [] Card.c2)).bets.length ∧
      ((resetState (streamOfList [] Card.c2)).done = true ↔
        (resetState (streamOfList [] Card.c2)).currentHand =
          (resetState (streamOfList [] Card.c2)).playerHands.length)) ∧
    exSplit.currentHand ≤ exC2Stand.currentHand ∧
    (exSplit.currentHand = (resetState exStream).currentHand ∧
      exSplit.playerHands =
        List.insertIdx ((resetState exStream).currentHand + 1)
          [((resetState exStream).playerHands.getD
              (resetState exStream).currentHand []).getLastD Card.A,
           exStream ((resetState exStream).next + 1)]
          ((resetState exStream).playerHands.set
            (resetState exStream).currentHand
            (((resetState exStream).playerHands.getD
                (resetState exStream).currentHand []).dropLast ++
              [exStream (resetState exStream).next])) ∧
      exSplit.bets =
        List.insertIdx ((resetState exStream).currentHand + 1)
          ((resetState exStream).bets.getD (resetState exStream).currentHand 0)
          (resetState exStream).bets) := by
  have h := round_state_invariant exCfg
  refine ⟨?_, ?_, ?_⟩
  · exact h.1 _ (Reachable.reset (streamOfList [] Card.c2))
  · exact h.2.1 exStream Action.stand exSplit _ exC2Stand_step
  · exact h.2.2 exStream (resetState exStream) _ rfl exSplit_step

end Blackjack
